import Mathlib

/-!
Shallow embedding of the `regexxx` augmented-NFA construction engine
(`src/anfa.rs`).  The transition table is a list of two-slot state records;
state identifiers are natural numbers (Rust `usize`).  Rust's panicking
index operation `self.delta[i]` is modelled by returning `none` from an
operation (a panic), while the source's `Result<_, &'static str>` is
modelled by `Except String _`.
-/

/-- State identifier (`QId` in the crate root, `usize` in Rust).
Modelled from the spec: `QId` is declared in the crate root, which is not
among the provided sources; the spec fixes it as an unsigned index. -/
abbrev QId := Nat

/-- One transition: a label (`none` is epsilon, `some c` a literal symbol)
and a target state id, i.e. Rust `(Option<char>, usize)`. -/
abbrev Transition := Option Char × QId

/-- One state's record: the two fixed transition slots,
Rust `[Option<(Option<char>, usize)>; 2]`. -/
abbrev StateRecord := Option Transition × Option Transition

/-- The transition table (`Delta` in the crate root).
Modelled from the spec: `Delta` is declared in the crate root, which is not
among the provided sources; its shape `Vec<[Option<(Option<char>, usize)>; 2]>`
is fixed by every use in `anfa.rs`. -/
abbrev Delta := List StateRecord

/-- The all-empty state record `[None, None]`. -/
def emptyRec : StateRecord := (none, none)

/-- Reference to a sub-automaton's initial and final states (`AutomataRef`). -/
structure AutomataRef where
  q0 : QId
  f : QId
deriving DecidableEq

/-- Augmented non-deterministic finite automaton (`ANFA`). -/
structure ANFA where
  delta : Delta
  q0 : Option QId
  f : Option QId
deriving DecidableEq

/-- `ANFA::new`: an automaton with no state. -/
def ANFA.new : ANFA := { delta := [], q0 := none, f := none }

/-- `ANFA::in_and_fin`: record the handle's states as the automaton's
global initial and final states; always returns `Ok(())`. -/
def ANFA.in_and_fin (m : ANFA) (machine_ref_a : AutomataRef) :
    ANFA × Except String Unit :=
  ({ m with q0 := some machine_ref_a.q0, f := some machine_ref_a.f },
   Except.ok ())

/-- `ANFA::expr_0`: append two empty states, accept nothing. -/
def ANFA.expr_0 (m : ANFA) : ANFA × Except String AutomataRef :=
  let q0 := m.delta.length
  let f := q0 + 1
  ({ m with delta := m.delta ++ [emptyRec, emptyRec] },
   Except.ok { q0 := q0, f := f })

/-- `ANFA::expr_1`: append one empty state, accept the empty string. -/
def ANFA.expr_1 (m : ANFA) : ANFA × Except String AutomataRef :=
  let q0 := m.delta.length
  ({ m with delta := m.delta ++ [emptyRec] },
   Except.ok { q0 := q0, f := q0 })

/-- `ANFA::expr_a`: append two states with a literal transition between
them, accept exactly the one-symbol string. -/
def ANFA.expr_a (m : ANFA) (c : Char) : ANFA × Except String AutomataRef :=
  let q0 := m.delta.length
  let f := q0 + 1
  ({ m with delta := m.delta ++ [(some (some c, f), none), emptyRec] },
   Except.ok { q0 := q0, f := f })

/-- `ANFA::concatenate`: wire `a`'s final state to `b`'s initial state by
an epsilon transition.  `none` models the panic of the Rust indexing
`self.delta[...]` on an out-of-range state id. -/
def ANFA.concatenate (m : ANFA) (machine_ref_a machine_ref_b : AutomataRef) :
    Option (ANFA × Except String AutomataRef) :=
  match m.delta[machine_ref_a.f]?, m.delta[machine_ref_b.f]? with
  | some ra, some rb =>
    if ra = emptyRec ∧ rb = emptyRec then
      some ({ m with
                delta := m.delta.set machine_ref_a.f
                  (some (none, machine_ref_b.q0), none) },
            Except.ok { q0 := machine_ref_a.q0, f := machine_ref_b.f })
    else
      some (m, Except.error
        "Final states of machine_ref_a and machine_ref_b can NOT have transitions")
  | _, _ => none

/-- `ANFA::star`: append a new entry, branch and final state and close the
loop through `a`.  `none` models the panic of the Rust indexing on an
out-of-range state id. -/
def ANFA.star (m : ANFA) (machine_ref_a : AutomataRef) :
    Option (ANFA × Except String AutomataRef) :=
  match m.delta[machine_ref_a.f]? with
  | some ra =>
    if ra = emptyRec then
      let q0 := m.delta.length
      let q_next := q0 + 1
      let f := q_next + 1
      let d := m.delta ++
        [(some (none, q_next), none),
         (some (none, machine_ref_a.q0), some (none, f)),
         emptyRec]
      some ({ m with delta := d.set machine_ref_a.f (some (none, q_next), none) },
            Except.ok { q0 := q0, f := f })
    else
      some (m, Except.error "Final state of machine_ref_a can NOT have transitions")
  | none => none

/-- `ANFA::union`: append a branch state over both operands' entries and a
shared new final state.  `none` models the panic of the Rust indexing on an
out-of-range state id. -/
def ANFA.union (m : ANFA) (machine_ref_a machine_ref_b : AutomataRef) :
    Option (ANFA × Except String AutomataRef) :=
  match m.delta[machine_ref_a.f]?, m.delta[machine_ref_b.f]? with
  | some ra, some rb =>
    if ra = emptyRec ∧ rb = emptyRec then
      let q0 := m.delta.length
      let f := q0 + 1
      let d := m.delta ++
        [(some (none, machine_ref_a.q0), some (none, machine_ref_b.q0)),
         emptyRec]
      some ({ m with
                delta := (d.set machine_ref_a.f (some (none, f), none)).set
                  machine_ref_b.f (some (none, f), none) },
            Except.ok { q0 := q0, f := f })
    else
      some (m, Except.error
        "Final states of machine_ref_a and machine_ref_b can NOT have transitions")
  | _, _ => none

/-- Helper fact: a successful `getElem?` bounds the index. -/
theorem lt_length_of_getElem?_eq_some {d : Delta} {i : QId} {r : StateRecord}
    (h : d[i]? = some r) : i < d.length := by
  rcases List.getElem?_eq_some_iff.mp h with ⟨hlt, _⟩
  exact hlt

/-- C9: `in_and_fin` always returns `Ok(())`, records the handle's states as
the automaton's global initial and final states, and leaves the transition
table unchanged. -/
theorem in_and_fin_spec (m : ANFA) (a : AutomataRef) :
    (m.in_and_fin a).2 = Except.ok () ∧
    (m.in_and_fin a).1.q0 = some a.q0 ∧
    (m.in_and_fin a).1.f = some a.f ∧
    (m.in_and_fin a).1.delta = m.delta :=
  ⟨rfl, rfl, rfl, rfl⟩

/-- C8: each primitive builder always returns `Ok` and only appends:
`expr_0` appends two empty states and hands out a handle with distinct
states, `expr_1` appends one empty state and hands out a handle with equal
states, `expr_a c` appends an entry state whose slot 0 is the literal
transition `(c, accept)` followed by an empty accept state; existing table
content and the global initial/final fields are untouched. -/
theorem builders_spec (m : ANFA) (c : Char) :
    ((m.expr_0).2 = Except.ok { q0 := m.delta.length, f := m.delta.length + 1 } ∧
      (m.expr_0).1 = { m with delta := m.delta ++ [emptyRec, emptyRec] } ∧
      m.delta.length ≠ m.delta.length + 1) ∧
    ((m.expr_1).2 = Except.ok { q0 := m.delta.length, f := m.delta.length } ∧
      (m.expr_1).1 = { m with delta := m.delta ++ [emptyRec] }) ∧
    ((m.expr_a c).2 = Except.ok { q0 := m.delta.length, f := m.delta.length + 1 } ∧
      (m.expr_a c).1 = { m with delta :=
        m.delta ++ [(some (some c, m.delta.length + 1), none), emptyRec] } ∧
      m.delta.length ≠ m.delta.length + 1) :=
  ⟨⟨rfl, rfl, by omega⟩, ⟨rfl, rfl⟩, ⟨rfl, rfl, by omega⟩⟩

/-- C3: when both accept states are empty, `concatenate` keeps the table
length, rewrites `a`'s accept state to exactly an epsilon transition to
`b`'s entry in slot 0 with slot 1 empty, changes no other state, and
returns the handle `(a.q0, b.f)`. -/
theorem concatenate_spec (m : ANFA) (a b : AutomataRef)
    (ha : m.delta[a.f]? = some emptyRec) (hb : m.delta[b.f]? = some emptyRec) :
    m.concatenate a b =
      some ({ m with delta := m.delta.set a.f (some (none, b.q0), none) },
            Except.ok { q0 := a.q0, f := b.f }) ∧
    (m.delta.set a.f (some (none, b.q0), none)).length = m.delta.length ∧
    (m.delta.set a.f (some (none, b.q0), none))[a.f]? =
      some (some (none, b.q0), none) ∧
    (∀ i, i ≠ a.f → (m.delta.set a.f (some (none, b.q0), none))[i]? = m.delta[i]?) := by
  have haf : a.f < m.delta.length := lt_length_of_getElem?_eq_some ha
  refine ⟨?_, ?_, ?_, ?_⟩
  · simp only [ANFA.concatenate, ha, hb]
    simp
  · simp
  · simp [List.getElem?_set_self haf]
  · intro i hi
    exact List.getElem?_set_ne (fun h => hi h.symm)

/-- Closed witness for `concatenate_spec` at a concrete automaton. -/
theorem concatenate_spec_witness :
    ((ANFA.new.expr_a 'a').1.expr_a 'b').1.delta[1]? = some emptyRec ∧
    ((ANFA.new.expr_a 'a').1.expr_a 'b').1.delta[3]? = some emptyRec ∧
    (((ANFA.new.expr_a 'a').1.expr_a 'b').1.concatenate ⟨0, 1⟩ ⟨2, 3⟩ =
      some ({ ((ANFA.new.expr_a 'a').1.expr_a 'b').1 with delta :=
                (((ANFA.new.expr_a 'a').1.expr_a 'b').1.delta.set 1
                  (some (none, 2), none)) },
            Except.ok { q0 := 0, f := 3 })) :=
  ⟨by decide, by decide,
   (concatenate_spec ((ANFA.new.expr_a 'a').1.expr_a 'b').1 ⟨0, 1⟩ ⟨2, 3⟩
     (by decide) (by decide)).1⟩


/-- The three states appended by `star`, after the existing table. -/
def starList (m : ANFA) (a : AutomataRef) : Delta :=
  m.delta ++
    [(some (none, m.delta.length + 1), none),
     (some (none, a.q0), some (none, m.delta.length + 2)),
     emptyRec]

/-- The automaton produced by a successful `star` call, written out. -/
def starResult (m : ANFA) (a : AutomataRef) : ANFA :=
  { m with delta := List.set (starList m a) a.f
                      (some (none, m.delta.length + 1), none) }

/-- The two states appended by `union`, after the existing table. -/
def unionList (m : ANFA) (a b : AutomataRef) : Delta :=
  m.delta ++ [(some (none, a.q0), some (none, b.q0)), emptyRec]

/-- The automaton produced by a successful `union` call, written out. -/
def unionResult (m : ANFA) (a b : AutomataRef) : ANFA :=
  { m with delta := List.set
                      (List.set (unionList m a b) a.f
                        (some (none, m.delta.length + 1), none))
                      b.f (some (none, m.delta.length + 1), none) }

/-- C1: when `a`'s accept state is empty, `star` appends exactly three
states — entry, branch, final, in this order — wires entry.slot0 = ε→branch,
branch.slot0 = ε→`a.q0`, branch.slot1 = ε→final, overwrites `a`'s accept
state with slot 0 = ε→branch and slot 1 empty, leaves every other existing
state unchanged, and returns the handle (entry, final). -/
theorem star_spec (m : ANFA) (a : AutomataRef)
    (ha : m.delta[a.f]? = some emptyRec) :
    m.star a = some (starResult m a,
      Except.ok { q0 := m.delta.length, f := m.delta.length + 2 }) ∧
    (starResult m a).delta.length = m.delta.length + 3 ∧
    (starResult m a).delta[m.delta.length]? =
      some (some (none, m.delta.length + 1), none) ∧
    (starResult m a).delta[m.delta.length + 1]? =
      some (some (none, a.q0), some (none, m.delta.length + 2)) ∧
    (starResult m a).delta[m.delta.length + 2]? = some emptyRec ∧
    (starResult m a).delta[a.f]? = some (some (none, m.delta.length + 1), none) ∧
    (∀ i, i < m.delta.length → i ≠ a.f →
      (starResult m a).delta[i]? = m.delta[i]?) ∧
    (starResult m a).q0 = m.q0 ∧ (starResult m a).f = m.f := by
  have haf : a.f < m.delta.length := lt_length_of_getElem?_eq_some ha
  have hne0 : a.f ≠ m.delta.length := Nat.ne_of_lt haf
  have hne1 : a.f ≠ m.delta.length + 1 := Nat.ne_of_lt (Nat.lt_succ_of_lt haf)
  have hne2 : a.f ≠ m.delta.length + 2 :=
    Nat.ne_of_lt (Nat.lt_succ_of_lt (Nat.lt_succ_of_lt haf))
  refine ⟨?_, ?_, ?_, ?_, ?_, ?_, ?_, rfl, rfl⟩
  · simp only [ANFA.star, ha]
    simp [starResult, starList]
  · simp [starResult, starList]
  · simp only [starResult, starList]
    rw [List.getElem?_set_ne hne0, List.getElem?_append_right (Nat.le_refl _)]
    simp
  · simp only [starResult, starList]
    rw [List.getElem?_set_ne hne1,
      List.getElem?_append_right (Nat.le_add_right _ 1)]
    simp
  · simp only [starResult, starList]
    rw [List.getElem?_set_ne hne2,
      List.getElem?_append_right (Nat.le_add_right _ 2)]
    simp
  · simp only [starResult, starList]
    rw [List.getElem?_set_self', List.getElem?_append_left haf, ha]
    rfl
  · intro i hi hne
    simp only [starResult, starList]
    rw [List.getElem?_set_ne fun h => hne h.symm]
    exact List.getElem?_append_left hi

/-- Closed witness for `star_spec` at a concrete automaton. -/
theorem star_spec_witness :
    (ANFA.new.expr_a 'a').1.delta[1]? = some emptyRec ∧
    (ANFA.new.expr_a 'a').1.star ⟨0, 1⟩ =
      some (starResult (ANFA.new.expr_a 'a').1 ⟨0, 1⟩,
            Except.ok { q0 := 2, f := 4 }) :=
  ⟨by decide, (star_spec (ANFA.new.expr_a 'a').1 ⟨0, 1⟩ (by decide)).1⟩

/-- C2: when both accept states are empty, `union` appends exactly two
states — a branch then a final state — wires branch.slot0 = ε→`a.q0` and
branch.slot1 = ε→`b.q0` (left operand in slot 0), overwrites both operands'
accept states with slot 0 = ε→final and slot 1 empty, leaves every other
existing state unchanged, and returns the handle (branch, final). -/
theorem union_spec (m : ANFA) (a b : AutomataRef)
    (ha : m.delta[a.f]? = some emptyRec) (hb : m.delta[b.f]? = some emptyRec) :
    m.union a b = some (unionResult m a b,
      Except.ok { q0 := m.delta.length, f := m.delta.length + 1 }) ∧
    (unionResult m a b).delta.length = m.delta.length + 2 ∧
    (unionResult m a b).delta[m.delta.length]? =
      some (some (none, a.q0), some (none, b.q0)) ∧
    (unionResult m a b).delta[m.delta.length + 1]? = some emptyRec ∧
    (unionResult m a b).delta[a.f]? =
      some (some (none, m.delta.length + 1), none) ∧
    (unionResult m a b).delta[b.f]? =
      some (some (none, m.delta.length + 1), none) ∧
    (∀ i, i < m.delta.length → i ≠ a.f → i ≠ b.f →
      (unionResult m a b).delta[i]? = m.delta[i]?) ∧
    (unionResult m a b).q0 = m.q0 ∧ (unionResult m a b).f = m.f := by
  have haf : a.f < m.delta.length := lt_length_of_getElem?_eq_some ha
  have hbf : b.f < m.delta.length := lt_length_of_getElem?_eq_some hb
  have hane0 : a.f ≠ m.delta.length := Nat.ne_of_lt haf
  have hane1 : a.f ≠ m.delta.length + 1 := Nat.ne_of_lt (Nat.lt_succ_of_lt haf)
  have hbne0 : b.f ≠ m.delta.length := Nat.ne_of_lt hbf
  have hbne1 : b.f ≠ m.delta.length + 1 := Nat.ne_of_lt (Nat.lt_succ_of_lt hbf)
  refine ⟨?_, ?_, ?_, ?_, ?_, ?_, ?_, rfl, rfl⟩
  · simp only [ANFA.union, ha, hb]
    simp [unionResult, unionList]
  · simp [unionResult, unionList]
  · simp only [unionResult, unionList]
    rw [List.getElem?_set_ne hbne0, List.getElem?_set_ne hane0,
      List.getElem?_append_right (Nat.le_refl _)]
    simp
  · simp only [unionResult, unionList]
    rw [List.getElem?_set_ne hbne1, List.getElem?_set_ne hane1,
      List.getElem?_append_right (Nat.le_add_right _ 1)]
    simp
  · simp only [unionResult, unionList]
    rcases eq_or_ne b.f a.f with hba | hba
    · rw [hba, List.getElem?_set_self', List.getElem?_set_self',
        List.getElem?_append_left haf, ha]
      rfl
    · rw [List.getElem?_set_ne hba, List.getElem?_set_self',
        List.getElem?_append_left haf, ha]
      rfl
  · simp only [unionResult, unionList]
    rcases eq_or_ne a.f b.f with hab | hab
    · rw [List.getElem?_set_self', hab, List.getElem?_set_self',
        List.getElem?_append_left hbf, hb]
      rfl
    · rw [List.getElem?_set_self', List.getElem?_set_ne hab,
        List.getElem?_append_left hbf, hb]
      rfl
  · intro i hi hia hib
    simp only [unionResult, unionList]
    rw [List.getElem?_set_ne fun h => hib h.symm,
      List.getElem?_set_ne fun h => hia h.symm]
    exact List.getElem?_append_left hi

/-- Closed witness for `union_spec` at a concrete automaton. -/
theorem union_spec_witness :
    ((ANFA.new.expr_a 'a').1.expr_a 'b').1.delta[1]? = some emptyRec ∧
    ((ANFA.new.expr_a 'a').1.expr_a 'b').1.delta[3]? = some emptyRec ∧
    ((ANFA.new.expr_a 'a').1.expr_a 'b').1.union ⟨0, 1⟩ ⟨2, 3⟩ =
      some (unionResult ((ANFA.new.expr_a 'a').1.expr_a 'b').1 ⟨0, 1⟩ ⟨2, 3⟩,
            Except.ok { q0 := 4, f := 5 }) :=
  ⟨by decide, by decide,
   (union_spec ((ANFA.new.expr_a 'a').1.expr_a 'b').1 ⟨0, 1⟩ ⟨2, 3⟩
     (by decide) (by decide)).1⟩

/-- C4: when an operand's accept state already carries a transition,
`concatenate`, `star` and `union` return the descriptive error and hand
back the automaton exactly as it was — same table, no partial wiring. -/
theorem precondition_error_spec (m : ANFA) (a b : AutomataRef)
    (ra rb : StateRecord)
    (ha : m.delta[a.f]? = some ra) (hb : m.delta[b.f]? = some rb) :
    (¬(ra = emptyRec ∧ rb = emptyRec) →
      m.concatenate a b = some (m, Except.error
        "Final states of machine_ref_a and machine_ref_b can NOT have transitions") ∧
      m.union a b = some (m, Except.error
        "Final states of machine_ref_a and machine_ref_b can NOT have transitions")) ∧
    (ra ≠ emptyRec →
      m.star a = some (m, Except.error
        "Final state of machine_ref_a can NOT have transitions")) := by
  constructor
  · intro h
    constructor
    · simp only [ANFA.concatenate, ha, hb]
      rw [if_neg h]
    · simp only [ANFA.union, ha, hb]
      rw [if_neg h]
  · intro h
    simp only [ANFA.star, ha]
    rw [if_neg h]

/-- Closed witness for `precondition_error_spec`: reusing the entry state
of a literal machine as an accept state is rejected and the machine is
returned untouched. -/
theorem precondition_error_spec_witness :
    (ANFA.new.expr_a 'a').1.delta[0]? = some (some (some 'a', 1), none) ∧
    (¬((some (some 'a', 1), (none : Option Transition)) = emptyRec ∧
       (some (some 'a', 1), (none : Option Transition)) = emptyRec)) ∧
    (ANFA.new.expr_a 'a').1.concatenate ⟨1, 0⟩ ⟨1, 0⟩ =
      some ((ANFA.new.expr_a 'a').1, Except.error
        "Final states of machine_ref_a and machine_ref_b can NOT have transitions") :=
  ⟨by decide, by decide,
   (((precondition_error_spec (ANFA.new.expr_a 'a').1 ⟨1, 0⟩ ⟨1, 0⟩
       (some (some 'a', 1), none) (some (some 'a', 1), none)
       (by decide) (by decide)).1) (by decide)).1⟩

/-- C6 counterexample: with an out-of-range accept-state id the Rust
indexing `self.delta[machine_ref_a.f]` panics — on the empty table,
`concatenate` with state id 0 does not return a value. -/
theorem combinator_panic_counterexample :
    ANFA.new.concatenate { q0 := 0, f := 0 } { q0 := 0, f := 0 } = none := rfl

/-- C6 (amended): provided each operand's accept-state id is in range for
the table, `concatenate`, `star` and `union` always return a value —
`Ok` with a handle or `Err` with a message — and never panic. -/
theorem combinators_total_in_bounds (m : ANFA) (a b : AutomataRef)
    (ha : a.f < m.delta.length) (hb : b.f < m.delta.length) :
    (m.concatenate a b).isSome ∧ (m.star a).isSome ∧ (m.union a b).isSome := by
  obtain ⟨ra, hra⟩ : ∃ r, m.delta[a.f]? = some r :=
    ⟨_, List.getElem?_eq_getElem ha⟩
  obtain ⟨rb, hrb⟩ : ∃ r, m.delta[b.f]? = some r :=
    ⟨_, List.getElem?_eq_getElem hb⟩
  refine ⟨?_, ?_, ?_⟩
  · simp only [ANFA.concatenate, hra, hrb]
    split <;> simp
  · simp only [ANFA.star, hra]
    split <;> simp
  · simp only [ANFA.union, hra, hrb]
    split <;> simp

/-- Closed witness for `combinators_total_in_bounds` on a one-state table. -/
theorem combinators_total_in_bounds_witness :
    0 < (ANFA.new.expr_1).1.delta.length ∧
    (((ANFA.new.expr_1).1.concatenate ⟨0, 0⟩ ⟨0, 0⟩).isSome ∧
     ((ANFA.new.expr_1).1.star ⟨0, 0⟩).isSome ∧
     ((ANFA.new.expr_1).1.union ⟨0, 0⟩ ⟨0, 0⟩).isSome) :=
  ⟨by decide,
   combinators_total_in_bounds (ANFA.new.expr_1).1 ⟨0, 0⟩ ⟨0, 0⟩
     (by decide) (by decide)⟩

/-- Flatten one call's outcome: a panic (`none`) or an `Err` yields `none`,
a successful call yields the new automaton and its handle. -/
def runOk : Option (ANFA × Except String AutomataRef) → Option (ANFA × AutomataRef)
  | some (m, Except.ok r) => some (m, r)
  | some (_, Except.error _) => none
  | none => none

/-- Build literals from `cx`, `cy`, `cz`, concatenate as `(x·y)·z`, finalize. -/
def concatLeftAssoc (cx cy cz : Char) : Option ANFA := do
  let (m1, x) ← runOk (some (ANFA.new.expr_a cx))
  let (m2, y) ← runOk (some (m1.expr_a cy))
  let (m3, z) ← runOk (some (m2.expr_a cz))
  let (m4, xy) ← runOk (m3.concatenate x y)
  let (m5, xyz) ← runOk (m4.concatenate xy z)
  some (m5.in_and_fin xyz).1

/-- Build literals from `cx`, `cy`, `cz`, concatenate as `x·(y·z)`, finalize. -/
def concatRightAssoc (cx cy cz : Char) : Option ANFA := do
  let (m1, x) ← runOk (some (ANFA.new.expr_a cx))
  let (m2, y) ← runOk (some (m1.expr_a cy))
  let (m3, z) ← runOk (some (m2.expr_a cz))
  let (m4, yz) ← runOk (m3.concatenate y z)
  let (m5, xyz) ← runOk (m4.concatenate x yz)
  some (m5.in_and_fin xyz).1

/-- C5: concatenation is associative at the level of the table — building
`(x·y)·z` and `x·(y·z)` over the same literal sequence yields the same
finalized automaton, and both builds succeed with the explicit table. -/
theorem concatenate_assoc (cx cy cz : Char) :
    concatLeftAssoc cx cy cz = concatRightAssoc cx cy cz ∧
    concatLeftAssoc cx cy cz = some
      { delta := [(some (some cx, 1), none), (some (none, 2), none),
                  (some (some cy, 3), none), (some (none, 4), none),
                  (some (some cz, 5), none), emptyRec],
        q0 := some 0, f := some 5 } :=
  ⟨rfl, rfl⟩

/-- One builder or combinator call, as data. -/
inductive Op where
  | expr0 : Op
  | expr1 : Op
  | exprA : Char → Op
  | concat : AutomataRef → AutomataRef → Op
  | star : AutomataRef → Op
  | union : AutomataRef → AutomataRef → Op
deriving DecidableEq

/-- Execute one call on the shared automaton; `none` when the call panics
or reports a precondition error. -/
def applyOp (m : ANFA) : Op → Option (ANFA × AutomataRef)
  | Op.expr0 => runOk (some m.expr_0)
  | Op.expr1 => runOk (some m.expr_1)
  | Op.exprA c => runOk (some (m.expr_a c))
  | Op.concat a b => runOk (m.concatenate a b)
  | Op.star a => runOk (m.star a)
  | Op.union a b => runOk (m.union a b)

/-- Run a sequence of calls, requiring every call to succeed. -/
def runOps (m : ANFA) : List Op → Option ANFA
  | [] => some m
  | op :: ops =>
    match applyOp m op with
    | some (mn, _) => runOps mn ops
    | none => none

/-- How many states each operation appends to the table. -/
def Op.appendCount : Op → Nat
  | Op.expr0 => 2
  | Op.expr1 => 1
  | Op.exprA _ => 2
  | Op.concat _ _ => 0
  | Op.star _ => 3
  | Op.union _ _ => 2

/-- The accept-state ids an operation is allowed to overwrite. -/
def Op.acceptIds : Op → List QId
  | Op.concat a _ => [a.f]
  | Op.star a => [a.f]
  | Op.union a b => [a.f, b.f]
  | _ => []

/-- A successful flattened outcome comes from an `Ok` result. -/
theorem runOk_eq_some {x : Option (ANFA × Except String AutomataRef)}
    {mn : ANFA} {r : AutomataRef} (h : runOk x = some (mn, r)) :
    x = some (mn, Except.ok r) := by
  cases x with
  | none => simp [runOk] at h
  | some p =>
    obtain ⟨m1, e⟩ := p
    cases e with
    | ok r1 =>
      simp only [runOk, Option.some.injEq, Prod.mk.injEq] at h
      rw [h.1, h.2]
    | error s => simp [runOk] at h

/-- Inversion of a successful `concatenate`. -/
theorem concatenate_eq_ok {m mn : ANFA} {a b r : AutomataRef}
    (h : m.concatenate a b = some (mn, Except.ok r)) :
    m.delta[a.f]? = some emptyRec ∧ m.delta[b.f]? = some emptyRec ∧
    mn = { m with delta := m.delta.set a.f (some (none, b.q0), none) } ∧
    r = { q0 := a.q0, f := b.f } := by
  unfold ANFA.concatenate at h
  split at h
  · rename_i ra rb hga hgb
    split at h
    · rename_i hcond
      obtain ⟨hra, hrb⟩ := hcond
      subst hra
      subst hrb
      have hp := Option.some.inj h
      exact ⟨hga, hgb, (congrArg Prod.fst hp).symm,
        (Except.ok.inj (congrArg Prod.snd hp)).symm⟩
    · simp at h
  · simp at h

/-- Inversion of a successful `star`. -/
theorem star_eq_ok {m mn : ANFA} {a r : AutomataRef}
    (h : m.star a = some (mn, Except.ok r)) :
    m.delta[a.f]? = some emptyRec ∧
    mn = starResult m a ∧
    r = { q0 := m.delta.length, f := m.delta.length + 2 } := by
  unfold ANFA.star at h
  split at h
  · rename_i ra hga
    split at h
    · rename_i hcond
      subst hcond
      have hp := Option.some.inj h
      exact ⟨hga, (congrArg Prod.fst hp).symm,
        (Except.ok.inj (congrArg Prod.snd hp)).symm⟩
    · simp at h
  · simp at h

/-- Inversion of a successful `union`. -/
theorem union_eq_ok {m mn : ANFA} {a b r : AutomataRef}
    (h : m.union a b = some (mn, Except.ok r)) :
    m.delta[a.f]? = some emptyRec ∧ m.delta[b.f]? = some emptyRec ∧
    mn = unionResult m a b ∧
    r = { q0 := m.delta.length, f := m.delta.length + 1 } := by
  unfold ANFA.union at h
  split at h
  · rename_i ra rb hga hgb
    split at h
    · rename_i hcond
      obtain ⟨hra, hrb⟩ := hcond
      subst hra
      subst hrb
      have hp := Option.some.inj h
      exact ⟨hga, hgb, (congrArg Prod.fst hp).symm,
        (Except.ok.inj (congrArg Prod.snd hp)).symm⟩
    · simp at h
  · simp at h

/-- Step lemma: one successful call grows the table by the operation's
fixed count and changes existing records only at operand accept ids, always
to an epsilon slot-0 record with slot 1 empty. -/
theorem applyOp_step (m : ANFA) (op : Op) (mn : ANFA) (r : AutomataRef)
    (h : applyOp m op = some (mn, r)) :
    mn.delta.length = m.delta.length + op.appendCount ∧
    ∀ i, i < m.delta.length →
      mn.delta[i]? = m.delta[i]? ∨
      (i ∈ op.acceptIds ∧ ∃ t, mn.delta[i]? = some (some (none, t), none)) := by
  cases op with
  | expr0 =>
    have h0 : runOk (some m.expr_0) = some (mn, r) := h
    have hp := Option.some.inj (runOk_eq_some h0)
    have hmn : { m with delta := m.delta ++ [emptyRec, emptyRec] } = mn :=
      congrArg Prod.fst hp
    subst hmn
    exact ⟨by simp [Op.appendCount, ANFA.expr_0],
      fun i hi => Or.inl (List.getElem?_append_left hi)⟩
  | expr1 =>
    have h0 : runOk (some m.expr_1) = some (mn, r) := h
    have hp := Option.some.inj (runOk_eq_some h0)
    have hmn : { m with delta := m.delta ++ [emptyRec] } = mn :=
      congrArg Prod.fst hp
    subst hmn
    exact ⟨by simp [Op.appendCount, ANFA.expr_1],
      fun i hi => Or.inl (List.getElem?_append_left hi)⟩
  | exprA c =>
    have h0 : runOk (some (m.expr_a c)) = some (mn, r) := h
    have hp := Option.some.inj (runOk_eq_some h0)
    have hmn : { m with delta :=
        m.delta ++ [(some (some c, m.delta.length + 1), none), emptyRec] } = mn :=
      congrArg Prod.fst hp
    subst hmn
    exact ⟨by simp [Op.appendCount, ANFA.expr_a],
      fun i hi => Or.inl (List.getElem?_append_left hi)⟩
  | concat a b =>
    have h0 : runOk (m.concatenate a b) = some (mn, r) := h
    obtain ⟨hga, hgb, hmn, hr⟩ := concatenate_eq_ok (runOk_eq_some h0)
    subst hmn
    refine ⟨by simp [Op.appendCount], fun i hi => ?_⟩
    by_cases hia : i = a.f
    · subst hia
      exact Or.inr ⟨by simp [Op.acceptIds], b.q0,
        by simp [List.getElem?_set_self hi]⟩
    · exact Or.inl (List.getElem?_set_ne fun hh => hia hh.symm)
  | star a =>
    have h0 : runOk (m.star a) = some (mn, r) := h
    obtain ⟨hga, hmn, hr⟩ := star_eq_ok (runOk_eq_some h0)
    subst hmn
    refine ⟨by simp [Op.appendCount, starResult, starList], fun i hi => ?_⟩
    by_cases hia : i = a.f
    · subst hia
      refine Or.inr ⟨by simp [Op.acceptIds], m.delta.length + 1, ?_⟩
      have hb2 : a.f < (starList m a).length := by
        simp only [starList, List.length_append]
        exact Nat.lt_add_right _ hi
      simp [starResult, List.getElem?_set_self hb2]
    · refine Or.inl ?_
      simp only [starResult]
      rw [List.getElem?_set_ne fun hh => hia hh.symm]
      simp only [starList]
      exact List.getElem?_append_left hi
  | union a b =>
    have h0 : runOk (m.union a b) = some (mn, r) := h
    obtain ⟨hga, hgb, hmn, hr⟩ := union_eq_ok (runOk_eq_some h0)
    subst hmn
    refine ⟨by simp [Op.appendCount, unionResult, unionList], fun i hi => ?_⟩
    by_cases hib : i = b.f
    · subst hib
      refine Or.inr ⟨by simp [Op.acceptIds], m.delta.length + 1, ?_⟩
      have hb2 : b.f < (List.set (unionList m a b) a.f
          (some (none, m.delta.length + 1), none)).length := by
        simp only [unionList, List.length_set, List.length_append]
        exact Nat.lt_add_right _ hi
      simp [unionResult, List.getElem?_set_self hb2]
    · by_cases hia : i = a.f
      · subst hia
        refine Or.inr ⟨by simp [Op.acceptIds], m.delta.length + 1, ?_⟩
        simp only [unionResult]
        rw [List.getElem?_set_ne fun hh => hib hh.symm]
        have hb2 : a.f < (unionList m a b).length := by
          simp only [unionList, List.length_append]
          exact Nat.lt_add_right _ hi
        rw [List.getElem?_set_self hb2]
      · refine Or.inl ?_
        simp only [unionResult]
        rw [List.getElem?_set_ne fun hh => hib hh.symm,
          List.getElem?_set_ne fun hh => hia hh.symm]
        simp only [unionList]
        exact List.getElem?_append_left hi

/-- Sequence lemma: over any successful run the table length never
decreases, and every pre-existing record is unchanged or carries an epsilon
slot-0 overwrite. -/
theorem runOps_append_only (ops : List Op) :
    ∀ m mn : ANFA, runOps m ops = some mn →
      m.delta.length ≤ mn.delta.length ∧
      ∀ i, i < m.delta.length →
        mn.delta[i]? = m.delta[i]? ∨
        ∃ t, mn.delta[i]? = some (some (none, t), none) := by
  induction ops with
  | nil =>
    intro m mn h
    cases h
    exact ⟨Nat.le_refl _, fun i hi => Or.inl rfl⟩
  | cons op ops ih =>
    intro m mn h
    simp only [runOps] at h
    cases hstep : applyOp m op with
    | none => rw [hstep] at h; cases h
    | some p =>
      obtain ⟨m1, r⟩ := p
      rw [hstep] at h
      obtain ⟨hlen1, hpres1⟩ := applyOp_step m op m1 r hstep
      obtain ⟨hlen2, hpres2⟩ := ih m1 mn h
      refine ⟨?_, ?_⟩
      · exact Nat.le_trans (hlen1 ▸ Nat.le_add_right _ _) hlen2
      · intro i hi
        have hi1 : i < m1.delta.length := by
          rw [hlen1]
          exact Nat.lt_add_right _ hi
        rcases hpres2 i hi1 with h2 | ⟨t, h2⟩
        · rcases hpres1 i hi with h1 | ⟨_, t, h1⟩
          · exact Or.inl (h2.trans h1)
          · exact Or.inr ⟨t, h2.trans h1⟩
        · exact Or.inr ⟨t, h2⟩

/-- C7: per call, each successful builder or combinator grows the table by
its fixed append count (new states take the next table indices, so ids are
handed out in strictly increasing order and never reused) and rewrites
existing records only at operand accept ids, to an epsilon slot-0 record;
over any successful sequence the length never decreases and pre-existing
slots change only by such overwrites. -/
theorem table_append_only :
    (∀ (m : ANFA) (op : Op) (mn : ANFA) (r : AutomataRef),
      applyOp m op = some (mn, r) →
      mn.delta.length = m.delta.length + op.appendCount ∧
      ∀ i, i < m.delta.length →
        mn.delta[i]? = m.delta[i]? ∨
        (i ∈ op.acceptIds ∧ ∃ t, mn.delta[i]? = some (some (none, t), none))) ∧
    (∀ (ops : List Op) (m mn : ANFA), runOps m ops = some mn →
      m.delta.length ≤ mn.delta.length ∧
      ∀ i, i < m.delta.length →
        mn.delta[i]? = m.delta[i]? ∨
        ∃ t, mn.delta[i]? = some (some (none, t), none)) :=
  ⟨applyOp_step, runOps_append_only⟩

/-- Closed witness for `table_append_only` on the run building `a*`. -/
theorem table_append_only_witness :
    runOps ANFA.new [Op.exprA 'a', Op.star ⟨0, 1⟩] = some
      { delta := [(some (some 'a', 1), none), (some (none, 3), none),
                  (some (none, 3), none), (some (none, 0), some (none, 4)),
                  emptyRec],
        q0 := none, f := none } ∧
    ANFA.new.delta.length ≤
      ({ delta := [(some (some 'a', 1), none), (some (none, 3), none),
                   (some (none, 3), none), (some (none, 0), some (none, 4)),
                   emptyRec],
         q0 := none, f := none } : ANFA).delta.length :=
  ⟨rfl,
   (table_append_only.2 [Op.exprA 'a', Op.star ⟨0, 1⟩] ANFA.new
     { delta := [(some (some 'a', 1), none), (some (none, 3), none),
                 (some (none, 3), none), (some (none, 0), some (none, 4)),
                 emptyRec],
       q0 := none, f := none } rfl).1⟩

/-- Slot-shape invariant: any record with slot 1 occupied also has slot 0
occupied. -/
def slotInv (d : Delta) : Prop :=
  ∀ r ∈ d, r.2.isSome → r.1.isSome

/-- Step lemma: every record a successful call appends or overwrites
respects the slot-shape invariant. -/
theorem applyOp_slotInv (m : ANFA) (op : Op) (mn : ANFA) (r : AutomataRef)
    (h : applyOp m op = some (mn, r)) (hinv : slotInv m.delta) :
    slotInv mn.delta := by
  cases op with
  | expr0 =>
    have h0 : runOk (some m.expr_0) = some (mn, r) := h
    have hp := Option.some.inj (runOk_eq_some h0)
    have hmn : { m with delta := m.delta ++ [emptyRec, emptyRec] } = mn :=
      congrArg Prod.fst hp
    subst hmn
    intro rr hmem hs
    rcases List.mem_append.mp hmem with hm | hm
    · exact hinv rr hm hs
    · simp only [List.mem_cons, List.not_mem_nil, or_false] at hm
      rcases hm with hm | hm <;> (subst hm; simp [emptyRec] at hs)
  | expr1 =>
    have h0 : runOk (some m.expr_1) = some (mn, r) := h
    have hp := Option.some.inj (runOk_eq_some h0)
    have hmn : { m with delta := m.delta ++ [emptyRec] } = mn :=
      congrArg Prod.fst hp
    subst hmn
    intro rr hmem hs
    rcases List.mem_append.mp hmem with hm | hm
    · exact hinv rr hm hs
    · simp only [List.mem_cons, List.not_mem_nil, or_false] at hm
      subst hm
      simp [emptyRec] at hs
  | exprA c =>
    have h0 : runOk (some (m.expr_a c)) = some (mn, r) := h
    have hp := Option.some.inj (runOk_eq_some h0)
    have hmn : { m with delta :=
        m.delta ++ [(some (some c, m.delta.length + 1), none), emptyRec] } = mn :=
      congrArg Prod.fst hp
    subst hmn
    intro rr hmem hs
    rcases List.mem_append.mp hmem with hm | hm
    · exact hinv rr hm hs
    · simp only [List.mem_cons, List.not_mem_nil, or_false] at hm
      rcases hm with hm | hm <;> (subst hm; simp [emptyRec] at hs)
  | concat a b =>
    have h0 : runOk (m.concatenate a b) = some (mn, r) := h
    obtain ⟨hga, hgb, hmn, hr⟩ := concatenate_eq_ok (runOk_eq_some h0)
    subst hmn
    intro rr hmem hs
    rcases List.mem_or_eq_of_mem_set hmem with hm | hm
    · exact hinv rr hm hs
    · subst hm
      simp at hs
  | star a =>
    have h0 : runOk (m.star a) = some (mn, r) := h
    obtain ⟨hga, hmn, hr⟩ := star_eq_ok (runOk_eq_some h0)
    subst hmn
    intro rr hmem hs
    simp only [starResult] at hmem
    rcases List.mem_or_eq_of_mem_set hmem with hm | hm
    · simp only [starList] at hm
      rcases List.mem_append.mp hm with hm2 | hm2
      · exact hinv rr hm2 hs
      · simp only [List.mem_cons, List.not_mem_nil, or_false] at hm2
        rcases hm2 with hm2 | hm2 | hm2 <;> (subst hm2; simp [emptyRec] at hs ⊢)
    · subst hm
      simp at hs
  | union a b =>
    have h0 : runOk (m.union a b) = some (mn, r) := h
    obtain ⟨hga, hgb, hmn, hr⟩ := union_eq_ok (runOk_eq_some h0)
    subst hmn
    intro rr hmem hs
    simp only [unionResult] at hmem
    rcases List.mem_or_eq_of_mem_set hmem with hm | hm
    · rcases List.mem_or_eq_of_mem_set hm with hm2 | hm2
      · simp only [unionList] at hm2
        rcases List.mem_append.mp hm2 with hm3 | hm3
        · exact hinv rr hm3 hs
        · simp only [List.mem_cons, List.not_mem_nil, or_false] at hm3
          rcases hm3 with hm3 | hm3 <;> (subst hm3; simp [emptyRec] at hs ⊢)
      · subst hm2
        simp at hs
    · subst hm
      simp at hs

/-- Sequence lemma: the slot-shape invariant is preserved by any
successful run. -/
theorem runOps_slotInv (ops : List Op) :
    ∀ m mn : ANFA, runOps m ops = some mn →
      slotInv m.delta → slotInv mn.delta := by
  induction ops with
  | nil =>
    intro m mn h hin
    cases h
    exact hin
  | cons op ops ih =>
    intro m mn h hin
    simp only [runOps] at h
    cases hstep : applyOp m op with
    | none => rw [hstep] at h; cases h
    | some p =>
      obtain ⟨m1, r⟩ := p
      rw [hstep] at h
      exact ih m1 mn h (applyOp_slotInv m op m1 r hstep hin)

/-- C10: in every table reachable from a fresh automaton by successful
builder and combinator calls, every state whose slot 1 is occupied also has
slot 0 occupied — no operation ever writes an empty slot 0 under a
non-empty slot 1, whether appending or overwriting. -/
theorem slot_inv_reachable (ops : List Op) (mn : ANFA)
    (h : runOps ANFA.new ops = some mn) : slotInv mn.delta :=
  runOps_slotInv ops ANFA.new mn h
    (fun rr hmem _ => absurd hmem (List.not_mem_nil rr))

/-- Closed witness for `slot_inv_reachable` on the run building `a*`. -/
theorem slot_inv_reachable_witness :
    runOps ANFA.new [Op.exprA 'a', Op.star ⟨0, 1⟩] = some
      { delta := [(some (some 'a', 1), none), (some (none, 3), none),
                  (some (none, 3), none), (some (none, 0), some (none, 4)),
                  emptyRec],
        q0 := none, f := none } ∧
    slotInv ({ delta := [(some (some 'a', 1), none), (some (none, 3), none),
                         (some (none, 3), none), (some (none, 0), some (none, 4)),
                         emptyRec],
               q0 := none, f := none } : ANFA).delta :=
  ⟨rfl,
   slot_inv_reachable [Op.exprA 'a', Op.star ⟨0, 1⟩]
     { delta := [(some (some 'a', 1), none), (some (none, 3), none),
                 (some (none, 3), none), (some (none, 0), some (none, 4)),
                 emptyRec],
       q0 := none, f := none } rfl⟩
